import Mathlib

/-!
Verification of the TTA_LightNovelNLP generation pipeline.

This file gives a shallow embedding, in Lean 4, of the core of the
repository: the `KeyManager` credential pool (`src/utils/keyManager.ts`),
the audio utilities (`decodeAudioData`, `concatenateAudioBuffers`,
`bufferToWav` in `audioUtils.ts`), and the Story-Mode generation pipeline
of `StoryMode.tsx` (`optimizeScript`, `performSmartCasting`'s scoring,
`processQueue` / `processItem`).  TypeScript numbers that are used as
integers (timestamps, counters, byte values, array indices) are modelled
as `Nat`; audio samples (JavaScript floats in [-1, 1]) are modelled as `ℚ`,
which is exact for every value the claims under study depend on.  Mutable
state is threaded explicitly: each method of a stateful class becomes a
function from the old state (plus the current clock value `now`, standing
for `Date.now()`) to the new state.

Theorems about the embedding follow the definitions.
-/

/-! ### String helpers

JavaScript's `String.prototype.includes` (substring test), modelled on the
character lists underlying Lean strings. -/

/-- Does the list `s` start with the list `pat`? -/
def startsWithChars : List Char → List Char → Bool
  | [], _ => true
  | _ :: _, [] => false
  | p :: ps, c :: cs => p == c && startsWithChars ps cs

/-- Does the list `s` contain `pat` as a contiguous sublist? -/
def containsChars (pat : List Char) : List Char → Bool
  | [] => startsWithChars pat []
  | c :: cs => startsWithChars pat (c :: cs) || containsChars pat cs

/-- JavaScript `s.includes(pat)`: substring containment. -/
def strIncl (s pat : String) : Bool :=
  containsChars pat.data s.data

/-- JavaScript `s.toLowerCase()`, character by character (exact for the
ASCII metadata the casting code compares). -/
def asciiLower (s : String) : String :=
  String.mk (s.data.map Char.toLower)

/-! ### Data model (`src/types.ts`) -/

/-- `VoiceAnalysis` from `src/types.ts`. -/
structure VoiceAnalysis where
  gender : String
  pitch : String
  characteristics : List String
  visualDescription : String
deriving DecidableEq

/-- `Voice` from `src/types.ts`. -/
structure Voice where
  name : String
  pitch : String
  characteristics : List String
  audioSampleUrl : String
  fileUri : String
  analysis : VoiceAnalysis
  imageUrl : String
deriving DecidableEq

/-- `ScriptSegment` from `src/types.ts`. -/
structure ScriptSegment where
  speaker : String
  text : String
deriving DecidableEq

/-- `CharacterProfile` from `src/types.ts`. -/
structure CharacterProfile where
  name : String
  gender : String
  description : String
deriving DecidableEq

/-! ### The credential pool (`src/utils/keyManager.ts`)

The `KeyManager` class.  Its two `Map`s are modelled as total functions
(`jailedUntil` with an `Option` codomain for `Map.has`/`Map.get`); the
source's `requestCounts.get(key) || 0` default is the function's own value.
`Date.now()` becomes the explicit parameter `now`.  The private method
`checkReset`, which the source triggers from inside `isUsable` as well as
at the top of `reserveKey`, is idempotent at a fixed instant, so the
embedding hoists it to the start of each public operation and keeps
`isUsable` pure. -/

structure KeyManager where
  keys : List String
  currentIndex : Nat
  jailedUntil : String → Option Nat
  requestCounts : String → Nat
  lastResetTime : Nat

/-- `KeyManager.MAX_RPM`. -/
def MAX_RPM : Nat := 12

/-- `KeyManager.RESET_INTERVAL` (one minute, in milliseconds). -/
def RESET_INTERVAL : Nat := 60000

/-- `checkReset`: zero all per-key request counters once the window has
elapsed.  (The source resets exactly the keys of the pool; counts are only
ever read at keys of the pool, so resetting the whole map is
indistinguishable.) -/
def checkReset (now : Nat) (st : KeyManager) : KeyManager :=
  if RESET_INTERVAL < now - st.lastResetTime then
    { st with requestCounts := fun _ => 0, lastResetTime := now }
  else st

/-- The jail test from `isUsable`:
`jailedUntil.has(key) && jailedUntil.get(key)! > Date.now()`. -/
def jailActive (now : Nat) (st : KeyManager) (key : String) : Bool :=
  match st.jailedUntil key with
  | some t => now < t
  | none => false

/-- `isUsable(index)` on an already-reset state: not jailed and under the
per-window request budget. -/
def isUsable (now : Nat) (st : KeyManager) (idx : Nat) : Bool :=
  let key := st.keys.getD idx ""
  if jailActive now st key then false
  else decide (st.requestCounts key < MAX_RPM)

/-- `incrementCount(key)`. -/
def incrementCount (key : String) (st : KeyManager) : KeyManager :=
  { st with
    requestCounts := fun k =>
      if k = key then st.requestCounts key + 1 else st.requestCounts k }

/-- The `for (let i = 1; i < keys.length; i++)` search of `reserveKey`,
over the list of offsets `i`; on the first usable pointer it moves
`currentIndex` there, increments the key's counter and returns the key. -/
def reserveScan (now : Nat) (st : KeyManager) : List Nat → Option String × KeyManager
  | [] => (none, st)
  | i :: rest =>
    let ptr := (st.currentIndex + i) % st.keys.length
    if isUsable now st ptr then
      let key := st.keys.getD ptr ""
      (some key, incrementCount key { st with currentIndex := ptr })
    else reserveScan now st rest

/-- `reserveKey()`: return a usable credential (checking the current index
first, then scanning forward) and increment its counter, or `none` when
every key is jailed or over budget. -/
def reserveKey (now : Nat) (st : KeyManager) : Option String × KeyManager :=
  let st1 := checkReset now st
  if isUsable now st1 st1.currentIndex then
    let key := st1.keys.getD st1.currentIndex ""
    (some key, incrementCount key st1)
  else
    reserveScan now st1 (List.range' 1 (st1.keys.length - 1))

/-- `getWorkingKey()`: delegate to `reserveKey`, and on failure fall back
to the key at the current index even if it is over limit. -/
def getWorkingKey (now : Nat) (st : KeyManager) : String × KeyManager :=
  match reserveKey now st with
  | (some k, st2) => (k, st2)
  | (none, st2) => (st2.keys.getD st2.currentIndex "", st2)

/-- The `for` search of `jailCurrentKey`: move `currentIndex` to the first
usable pointer, else rotate one step. -/
def jailScan (now : Nat) (st : KeyManager) : List Nat → KeyManager
  | [] => { st with currentIndex := (st.currentIndex + 1) % st.keys.length }
  | i :: rest =>
    let ptr := (st.currentIndex + i) % st.keys.length
    if isUsable now st ptr then { st with currentIndex := ptr }
    else jailScan now st rest

/-- `jailCurrentKey(durationMs)`: jail the key at the *current* index until
`now + durationMs`, then advance the index to the next usable key if any,
else rotate. -/
def jailCurrentKey (now durationMs : Nat) (st : KeyManager) : KeyManager :=
  if st.keys.length = 0 then st
  else
    let st1 := checkReset now st
    let key := st1.keys.getD st1.currentIndex ""
    let st2 := { st1 with
      jailedUntil := fun k =>
        if k = key then some (now + durationMs) else st1.jailedUntil k }
    jailScan now st2 (List.range' 1 (st2.keys.length - 1))

/-! ### Audio utilities (`audioUtils.ts`, i.e. `src/unnamed/part_001`)

An `AudioBuffer` is modelled by its channel count, frame count, sample
rate, and per-channel sample lists (samples as `ℚ`).  A buffer produced by
`AudioContext.createBuffer` always satisfies `channelData.length =
numberOfChannels` and each channel has `length` samples; theorems that
need this carry it as a well-formedness hypothesis. -/

structure AudioBuffer where
  numberOfChannels : Nat
  length : Nat
  sampleRate : Nat
  channelData : List (List ℚ)
deriving DecidableEq

/-- `AudioContext.createBuffer(ch, len, rate)`: a silent buffer. -/
def createBuffer (ch len rate : Nat) : AudioBuffer :=
  { numberOfChannels := ch
    length := len
    sampleRate := rate
    channelData := List.replicate ch (List.replicate len 0) }

/-- A buffer is well formed when its channel data matches its declared
channel count and frame count (the invariant `createBuffer` guarantees). -/
def AudioBuffer.wf (b : AudioBuffer) : Prop :=
  b.channelData.length = b.numberOfChannels ∧
    ∀ c ∈ b.channelData, c.length = b.length

/-- `new Int16Array(bytes.buffer)`: reinterpret consecutive little-endian
byte pairs as signed 16-bit integers.  (On an odd byte count the
`Int16Array` constructor throws; WAV payloads are always even, and the
embedding simply stops at a trailing odd byte.) -/
def bytesToInt16 : List Nat → List Int
  | b0 :: b1 :: rest =>
    (let v := b0 + 256 * b1
     if v < 32768 then (v : Int) else (v : Int) - 65536) :: bytesToInt16 rest
  | _ => []

/-- `decodeAudioData(data, ctx, sampleRate, numChannels)`: decode raw
little-endian 16-bit PCM bytes into an `AudioBuffer`, de-interleaving
channels and scaling samples by `1/32768`. -/
def decodeAudioData (data : List Nat) (sampleRate numChannels : Nat) : AudioBuffer :=
  let dataInt16 := bytesToInt16 data
  let frameCount := dataInt16.length / numChannels
  { numberOfChannels := numChannels
    length := frameCount
    sampleRate := sampleRate
    channelData :=
      (List.range numChannels).map fun channel =>
        (List.range frameCount).map fun i =>
          ((dataInt16.getD (i * numChannels + channel) 0 : Int) : ℚ) / 32768 }

/-- `Float32Array.prototype.set(src, offset)` on a plain list: overwrite
`dst` with `src` starting at `offset`.  (When `offset + src.length`
exceeds `dst.length` the browser throws; the callers below only use it
within bounds, which the well-formedness hypotheses capture.) -/
def copyInto (dst : List ℚ) (off : Nat) (src : List ℚ) : List ℚ :=
  dst.take off ++ src ++ dst.drop (off + src.length)

/-- The per-channel copy loop of `concatenateAudioBuffers`: write each
buffer's channel data at the running offset, advancing by the buffer's
frame count. -/
def concatChannel (validBuffers : List AudioBuffer) (totalLength channel : Nat) : List ℚ :=
  (validBuffers.foldl
    (fun acc b => (copyInto acc.1 acc.2 (b.channelData.getD channel []), acc.2 + b.length))
    (List.replicate totalLength 0, 0)).1

/-- `concatenateAudioBuffers(ctx, buffers)`: drop zero-length buffers and
concatenate the rest; on an empty list, no valid buffer, or zero total
length, return the guard buffer `createBuffer(1, 1, 24000)`. -/
def concatenateAudioBuffers (buffers : List AudioBuffer) : AudioBuffer :=
  if buffers.isEmpty then createBuffer 1 1 24000
  else
    let validBuffers := buffers.filter fun b => decide (0 < b.length)
    if validBuffers.isEmpty then createBuffer 1 1 24000
    else
      let totalLength := validBuffers.foldl (fun acc b => acc + b.length) 0
      let numberOfChannels := (validBuffers.headD (createBuffer 1 1 24000)).numberOfChannels
      if totalLength = 0 then createBuffer 1 1 24000
      else
        { numberOfChannels := numberOfChannels
          length := totalLength
          sampleRate := (validBuffers.headD (createBuffer 1 1 24000)).sampleRate
          channelData :=
            (List.range numberOfChannels).map
              (concatChannel validBuffers totalLength) }

/-- Two little-endian bytes of a 16-bit value (`DataView.setUint16`). -/
def u16le (v : Nat) : List Nat := [v % 256, v / 256 % 256]

/-- Four little-endian bytes of a 32-bit value (`DataView.setUint32`). -/
def u32le (v : Nat) : List Nat :=
  [v % 256, v / 256 % 256, v / 65536 % 256, v / 16777216 % 256]

/-- Truncation toward zero, JavaScript's `| 0` on an in-range float. -/
def truncQ (q : ℚ) : Int :=
  if q < 0 then -(⌊-q⌋) else ⌊q⌋

/-- The sample conversion of `bufferToWav`: clamp to [-1, 1], then
`(0.5 + sample < 0 ? sample * 32768 : sample * 32767) | 0`. -/
def sampleToPCM (q : ℚ) : Int :=
  let s := max (-1) (min 1 q)
  truncQ (if 1/2 + s < 0 then s * 32768 else s * 32767)

/-- Two's-complement little-endian encoding of a 16-bit sample
(`DataView.setInt16`). -/
def int16leBytes (v : Int) : List Nat :=
  let u := (v % 65536).toNat
  [u % 256, u / 256]

/-- `bufferToWav(buffer)`: the emitted byte stream, 44-byte RIFF/WAVE
header followed by interleaved 16-bit PCM.  The source tracks two cursors:
`offset`, which its `setUint16`/`setUint32` helpers advance, and `pos`,
which only the sample loop advances; when the data-chunk-size field is
written as `length - pos - 4`, `pos` is still `0`, which the embedding
reproduces literally. -/
def bufferToWav (b : AudioBuffer) : List Nat :=
  let numOfChan := b.numberOfChannels
  let totalLen := b.length * numOfChan * 2 + 44
  u32le 0x46464952 ++ u32le (totalLen - 8) ++ u32le 0x45564157 ++
  u32le 0x20746d66 ++ u32le 16 ++ u16le 1 ++ u16le numOfChan ++
  u32le b.sampleRate ++ u32le (b.sampleRate * 2 * numOfChan) ++
  u16le (numOfChan * 2) ++ u16le 16 ++
  u32le 0x61746164 ++ u32le (totalLen - 0 - 4) ++
  ((List.range b.length).map fun pos =>
    ((List.range numOfChan).map fun i =>
      int16leBytes (sampleToPCM ((b.channelData.getD i []).getD pos 0))).flatten).flatten

/-! ### Story-Mode pipeline (`StoryMode.tsx`, in `src/utils/textUtils.ts`) -/

/-- `MAX_CHAR_LIMIT` from `optimizeScript`. -/
def MAX_CHAR_LIMIT : Nat := 800

/-- The merging loop of `optimizeScript`, with `current` the accumulator
segment: a consecutive segment of the same speaker is appended (with a
single separating space) while `current.text.length + next.text.length`
is under the cap, otherwise `current` is emitted and `next` starts a new
accumulator. -/
def optimizeGo (current : ScriptSegment) : List ScriptSegment → List ScriptSegment
  | [] => [current]
  | next :: rest =>
    if next.speaker = current.speaker ∧
        current.text.length + next.text.length < MAX_CHAR_LIMIT then
      optimizeGo { current with text := current.text ++ " " ++ next.text } rest
    else
      current :: optimizeGo next rest

/-- `optimizeScript(script)`. -/
def optimizeScript (script : List ScriptSegment) : List ScriptSegment :=
  match script with
  | [] => []
  | first :: rest => optimizeGo first rest

/-- The per-voice score computed inside `performSmartCasting` for one
character: gender adjustment, description/characteristics adjustments, a
small penalty for an already-used voice, and the random tie-break
perturbation `Math.random()`, passed in as `rand`. -/
def voiceScore (char : CharacterProfile) (voice : Voice)
    (usedVoices : List String) (rand : ℚ) : ℚ :=
  let charGender := if asciiLower char.gender = "" then "unknown" else asciiLower char.gender
  let voiceGender := asciiLower voice.analysis.gender
  let s1 : ℚ :=
    if charGender ≠ "unknown" ∧ charGender ≠ "n/a" then
      if strIncl charGender "female" ∧ voiceGender = "male" then 0 - 100
      else if strIncl charGender "male" ∧ voiceGender = "female" then 0 - 100
      else if charGender = voiceGender then 0 + 20
      else 0
    else 0
  let desc := asciiLower char.description
  let characteristics := voice.analysis.characteristics.map asciiLower
  let pitch := asciiLower voice.analysis.pitch
  let s2 :=
    if strIncl desc "old" ∨ strIncl desc "elderly" then
      if characteristics.contains "mature" ∨ characteristics.contains "deep" then s1 + 10
      else s1
    else if strIncl desc "young" ∨ strIncl desc "child" then
      let t := if characteristics.contains "youthful" then s1 + 10 else s1
      if strIncl pitch "high" then t + 5 else t
    else s1
  let s3 := if usedVoices.contains voice.name then s2 - 5 else s2
  s3 + rand

/-- `MAX_CONCURRENCY = Math.min(3, keyManager.activeKeyCount * 2)`. -/
def maxConcurrency (activeKeyCount : Nat) : Nat :=
  min 3 (activeKeyCount * 2)

/-- One queued job of `handleGenerate`:
`{ segment, index }` from `optimizedScript.map((segment, index) => ...)`. -/
structure Job where
  segment : ScriptSegment
  index : Nat
deriving DecidableEq

/-- The shared mutable state of one generation run that `processItem`
touches: the indexed output array `orderedBuffers`, the completion counter,
the job queue, and the shared `keyManager`. -/
structure GenState where
  orderedBuffers : List (Option AudioBuffer)
  completedCount : Nat
  queue : List Job
  keyMgr : KeyManager

/-- The outcome of one synthesis call, as `processItem` distinguishes it:
a response carrying audio bytes, a rate-limit (429) error, or any other
failure (network error, malformed response, or a response with no audio
payload, which the source turns into a thrown error). -/
inductive SynthResponse where
  | success (audioData : List Nat)
  | rateLimit
  | otherError

/-- `processItem(job, apiKey)` as a state transformer.  `mountedAtStart`
is the value of `isMountedRef.current` read by the guard at the top of
`processItem`; `mountedAtCompletion` is its value at the instant the
awaited synthesis response arrives.  The source performs no check at that
second instant, so `mountedAtCompletion` is unused — the success path
decodes the audio, appends the fixed 0.25 s pause buffer, stores the
combined chunk at the job's `index`, and increments `completedCount`; the
rate-limit path jails the current key for 60 s and pushes the job back to
the front of the queue; any other error drops the job. -/
def processItem (mountedAtStart mountedAtCompletion : Bool) (now : Nat)
    (job : Job) (apiKey : String) (resp : SynthResponse) (st : GenState) : GenState :=
  if !mountedAtStart then st
  else
    match resp with
    | .success audioData =>
      let buffer := decodeAudioData audioData 24000 1
      let pauseBuffer := createBuffer 1 6000 24000
      let combined := concatenateAudioBuffers [buffer, pauseBuffer]
      { st with
        orderedBuffers := st.orderedBuffers.set job.index (some combined)
        completedCount := st.completedCount + 1 }
    | .rateLimit =>
      { st with
        keyMgr := jailCurrentKey now 60000 st.keyMgr
        queue := job :: st.queue }
    | .otherError => st

/-- The effect on the shared output array of a set of completed jobs, each
write `(index, chunk)` executing `orderedBuffers[index] = chunk` — in
completion order, which the list order represents. -/
def applyWrites (ws : List (Nat × AudioBuffer))
    (slots : List (Option AudioBuffer)) : List (Option AudioBuffer) :=
  ws.foldl (fun s w => s.set w.1 (some w.2)) slots

/-- An instantaneous snapshot of the `processQueue` scheduler: the pending
queue and the number of active workers. -/
structure SchedState where
  queue : List Job
  activeWorkers : Nat
deriving DecidableEq

/-- The observable transitions of the `processQueue` loop under
concurrency ceiling `C`: a worker starts only when `activeWorkers < C`
(the loop `continue`s otherwise) and dequeues the front job; a finished
worker decrements `activeWorkers` (the `.finally` handler); a rate-limited
job is pushed back onto the front of the queue. -/
inductive SchedStep (C : Nat) : SchedState → SchedState → Prop where
  | start (j : Job) (q : List Job) (a : Nat) (h : a < C) :
      SchedStep C ⟨j :: q, a⟩ ⟨q, a + 1⟩
  | finish (q : List Job) (a : Nat) :
      SchedStep C ⟨q, a + 1⟩ ⟨q, a⟩
  | requeue (j : Job) (q : List Job) (a : Nat) :
      SchedStep C ⟨q, a⟩ ⟨j :: q, a⟩

/-- Reachability under the scheduler's transitions. -/
inductive SchedReach (C : Nat) : SchedState → SchedState → Prop where
  | refl (s : SchedState) : SchedReach C s s
  | tail {s t u : SchedState} :
      SchedReach C s t → SchedStep C t u → SchedReach C s u

/-! ### Concrete states used to evaluate the definitions -/

/-- A fresh two-key pool (both tokens pass the 10-character validation). -/
def kmFresh : KeyManager :=
  ⟨["AAAAAAAAAAAA", "BBBBBBBBBBBB"], 0, fun _ => none, fun _ => 0, 0⟩

/-- A pool in which the first key has exhausted its window budget (12
requests reserved through it) and the round-robin pointer has therefore
moved on to the second key, while a job that reserved the first key is
still in flight; the window started at time 1000. -/
def kmShifted : KeyManager :=
  ⟨["AAAAAAAAAAAA", "BBBBBBBBBBBB"], 1, fun _ => none,
    fun k => if k = "AAAAAAAAAAAA" then 12 else 0, 1000⟩

/-- A pool in which every key is jailed until time 5000. -/
def kmAllJailed : KeyManager :=
  ⟨["AAAAAAAAAAAA", "BBBBBBBBBBBB"], 0, fun _ => some 5000, fun _ => 0, 0⟩

/-- A single queued job for segment 0. -/
def sampleJob : Job := ⟨⟨"Narrator", "hello"⟩, 0⟩

/-- A one-segment generation run over `kmFresh`, before any completion. -/
def genStFresh : GenState := ⟨[none], 0, [], kmFresh⟩

/-- A one-segment generation run over `kmShifted`, before any completion. -/
def genStShifted : GenState := ⟨[none], 0, [], kmShifted⟩

/-- A 400-character segment by speaker "A". -/
def segA : ScriptSegment := ⟨"A", String.mk (List.replicate 400 'x')⟩

/-- A 399-character segment by speaker "A". -/
def segB : ScriptSegment := ⟨"A", String.mk (List.replicate 399 'y')⟩

/-- A character whose analysis reported gender "female". -/
def charFemale : CharacterProfile := ⟨"Mia", "female", ""⟩

/-- A catalog voice whose metadata gender is "Female". -/
def voiceFemale : Voice :=
  ⟨"Kore", "High", [], "", "", ⟨"Female", "High", [], ""⟩, ""⟩

/-- A character whose analysis reported gender "male". -/
def charMale : CharacterProfile := ⟨"Tom", "male", ""⟩

/-- A catalog voice whose metadata gender is "Male". -/
def voiceMale : Voice :=
  ⟨"Puck", "Low", [], "", "", ⟨"Male", "Low", [], ""⟩, ""⟩

/-! ### Theorems -/

/-- C9: when assembly receives zero valid chunks — the empty list, or only
zero-length buffers — `concatenateAudioBuffers` returns the guard buffer
`createBuffer(1, 1, 24000)` (one silent mono frame at 24 kHz), which is
well formed and of nonzero length, so the downstream WAV encoding step
never receives an invalid buffer. -/
theorem concatenate_degenerate_returns_guard (buffers : List AudioBuffer)
    (h : buffers = [] ∨ ∀ b ∈ buffers, b.length = 0) :
    concatenateAudioBuffers buffers = createBuffer 1 1 24000 ∧
      (createBuffer 1 1 24000).wf ∧ 0 < (createBuffer 1 1 24000).length := by
  refine ⟨?_, ?_, by decide⟩
  · rcases h with h | h
    · simp [concatenateAudioBuffers, h]
    · unfold concatenateAudioBuffers
      rcases hb : buffers with _ | ⟨b, bs⟩
      · simp
      · have hfilter : (b :: bs).filter (fun b => decide (0 < b.length)) = [] := by
          rw [List.filter_eq_nil_iff]
          intro a ha
          simp [h a (hb ▸ ha)]
        simp [hfilter]
  · constructor
    · decide
    · intro c hc
      simp [createBuffer] at hc
      simp [hc, createBuffer]

/-- C9 witness: a list holding one zero-length buffer is assembled into
the guard buffer. -/
theorem concatenate_degenerate_returns_guard_witness :
    concatenateAudioBuffers [createBuffer 1 0 24000] = createBuffer 1 1 24000 :=
  (concatenate_degenerate_returns_guard [createBuffer 1 0 24000]
    (Or.inr (by decide))).1

/-- C2: evaluating the casting score at the failing input.  A character of
gender "female" offered a voice of gender "female" scores −100: because
the string "female" contains "male" as a substring, the second mismatch
branch (`charGender.includes('male') && voiceGender === 'female'`) fires
and the exact-match branch (+20) is unreachable.  For "male" vs "male" the
exact-match reward works as documented, which shows the female/female
penalty is a slip, not a design choice. -/
theorem voiceScore_equal_female_gender_penalized :
    voiceScore charFemale voiceFemale [] 0 = -100 ∧
      voiceScore charMale voiceMale [] 0 = 20 ∧
      strIncl "female" "male" = true := by
  refine ⟨?_, ?_, by decide⟩ <;> simp +decide [voiceScore, charFemale, voiceFemale, charMale, voiceMale]

/-- C5: evaluating the WAV encoder at a failing input.  For the
one-channel, one-sample, 24 kHz buffer the emitted file is 46 bytes and
carries 2 data bytes, yet the data-chunk-size field at offset 40 holds 42
(total length − 4, because the source's `length - pos - 4` reads `pos`
while it is still 0) instead of the data byte length 2. -/
theorem bufferToWav_dataLength_field_wrong :
    ((bufferToWav (createBuffer 1 1 24000)).drop 40).take 4 = u32le 42 ∧
      ((bufferToWav (createBuffer 1 1 24000)).drop 44).length = 2 ∧
      (bufferToWav (createBuffer 1 1 24000)).length = 46 := by
  refine ⟨?_, ?_, ?_⟩ <;> decide

/-- C4: a completion that arrives after the owning context was deactivated
still mutates the shared state.  `mountedAtStart = true` (the only guard
the source has, at the top of `processItem`) and `mountedAtCompletion =
false` (the component has unmounted while the synthesis call was in
flight): the success path nevertheless writes the decoded chunk into
`orderedBuffers[0]` and increments `completedCount`. -/
theorem late_completion_still_mutates :
    (processItem true false 1000 sampleJob "AAAAAAAAAAAA"
        (SynthResponse.success [0, 0]) genStFresh).completedCount = 1 ∧
      ((processItem true false 1000 sampleJob "AAAAAAAAAAAA"
          (SynthResponse.success [0, 0]) genStFresh).orderedBuffers.getD 0 none).isSome
        = true :=
  ⟨rfl, rfl⟩

/-- `jailScan` only moves `currentIndex`; it never touches the jail map. -/
theorem jailScan_jailedUntil (now : Nat) (st : KeyManager) (is : List Nat) :
    (jailScan now st is).jailedUntil = st.jailedUntil := by
  induction is generalizing st with
  | nil => rfl
  | cons i rest ih =>
    simp only [jailScan]
    split
    · rfl
    · exact ih st

/-- `checkReset` only touches the counters and the window timestamp. -/
theorem checkReset_keys (now : Nat) (st : KeyManager) :
    (checkReset now st).keys = st.keys := by
  unfold checkReset; split <;> rfl

/-- `checkReset` preserves the round-robin pointer. -/
theorem checkReset_currentIndex (now : Nat) (st : KeyManager) :
    (checkReset now st).currentIndex = st.currentIndex := by
  unfold checkReset; split <;> rfl

/-- `checkReset` preserves the jail map. -/
theorem checkReset_jailedUntil (now : Nat) (st : KeyManager) :
    (checkReset now st).jailedUntil = st.jailedUntil := by
  unfold checkReset; split <;> rfl

/-- C3 counterexample: the suspended credential is not the one the failed
job used.  In `kmShifted` the in-flight job reserved key "AAAAAAAAAAAA",
after which the pool's pointer moved to key "BBBBBBBBBBBB" (key A having
exhausted its 12-request window).  When that job's rate-limit error
arrives, the handler jails the key at the *current* index: key B is
suspended until 61000 and key A — the credential the job actually used —
is not suspended at all (the job is still pushed to the queue front). -/
theorem rateLimit_jails_wrong_key_counterexample :
    (processItem true true 1000 sampleJob "AAAAAAAAAAAA"
        SynthResponse.rateLimit genStShifted).keyMgr.jailedUntil "AAAAAAAAAAAA" = none ∧
      (processItem true true 1000 sampleJob "AAAAAAAAAAAA"
          SynthResponse.rateLimit genStShifted).keyMgr.jailedUntil "BBBBBBBBBBBB"
        = some 61000 ∧
      (processItem true true 1000 sampleJob "AAAAAAAAAAAA"
          SynthResponse.rateLimit genStShifted).queue = [sampleJob] := by
  refine ⟨?_, ?_, ?_⟩ <;> decide

/-- C3 (amended): on a rate-limit response, `processItem` pushes the job
back to the front of the pending queue and suspends, for the default
60000 ms, the credential at the pool's current round-robin index — which
need not be the credential the failed job used. -/
theorem rateLimit_requeues_and_jails_current_index (now : Nat) (st : GenState)
    (job : Job) (apiKey : String) (h : st.keyMgr.keys ≠ []) :
    (processItem true true now job apiKey SynthResponse.rateLimit st).queue
        = job :: st.queue ∧
      (processItem true true now job apiKey SynthResponse.rateLimit st).keyMgr.jailedUntil
          (st.keyMgr.keys.getD st.keyMgr.currentIndex "") = some (now + 60000) := by
  constructor
  · rfl
  · show (jailCurrentKey now 60000 st.keyMgr).jailedUntil
        (st.keyMgr.keys.getD st.keyMgr.currentIndex "") = some (now + 60000)
    unfold jailCurrentKey
    rw [if_neg (by simpa [List.length_eq_zero] using h)]
    rw [jailScan_jailedUntil]
    simp [checkReset_keys, checkReset_currentIndex]

/-- C3 (amended) witness: in the fresh pool the current index holds key
"AAAAAAAAAAAA", so a rate-limited job jails exactly that key and is
requeued at the front. -/
theorem rateLimit_requeues_and_jails_current_index_witness :
    (processItem true true 0 sampleJob "AAAAAAAAAAAA"
        SynthResponse.rateLimit genStFresh).queue = sampleJob :: genStFresh.queue ∧
      (processItem true true 0 sampleJob "AAAAAAAAAAAA"
          SynthResponse.rateLimit genStFresh).keyMgr.jailedUntil
          (genStFresh.keyMgr.keys.getD genStFresh.keyMgr.currentIndex "")
        = some (0 + 60000) :=
  rateLimit_requeues_and_jails_current_index 0 genStFresh sampleJob "AAAAAAAAAAAA"
    (by decide)

set_option maxRecDepth 4000

/-- C7 counterexample: two same-speaker segments of 400 and 399
characters — each strictly under the 800-character cap — are merged,
because the guard compares `current.text.length + next.text.length`
(= 799 < 800) without counting the separating space; the merged segment
has exactly 800 characters, so the output is not strictly under the cap. -/
theorem optimizeScript_reaches_cap_counterexample :
    segA.text.length = 400 ∧ segB.text.length = 399 ∧
      (optimizeScript [segA, segB]).map (fun s => s.text.length) = [800] := by
  refine ⟨?_, ?_, ?_⟩ <;> decide

/-- The merging loop keeps every emitted segment at or under the cap,
provided the accumulator starts at or under the cap and every remaining
input segment is strictly under it. -/
theorem optimizeGo_length_bound (rest : List ScriptSegment) (current : ScriptSegment)
    (hc : current.text.length ≤ MAX_CHAR_LIMIT)
    (hrest : ∀ s ∈ rest, s.text.length < MAX_CHAR_LIMIT) :
    ∀ s ∈ optimizeGo current rest, s.text.length ≤ MAX_CHAR_LIMIT := by
  induction rest generalizing current with
  | nil =>
    intro s hs
    simp only [optimizeGo, List.mem_singleton] at hs
    exact hs ▸ hc
  | cons next rest ih =>
    intro s hs
    simp only [optimizeGo] at hs
    split at hs
    · rename_i hcond
      refine ih { current with text := current.text ++ " " ++ next.text } ?_
        (fun t ht => hrest t (List.mem_cons_of_mem _ ht)) s hs
      have hsp : (" " : String).length = 1 := rfl
      have : (current.text ++ " " ++ next.text).length
          = current.text.length + 1 + next.text.length := by
        simp [String.length_append, hsp]
      show (current.text ++ " " ++ next.text).length ≤ MAX_CHAR_LIMIT
      omega
    · rcases List.mem_cons.mp hs with h | h
      · exact h ▸ hc
      · exact ih next (le_of_lt (hrest next (List.mem_cons_self _ _)))
          (fun t ht => hrest t (List.mem_cons_of_mem _ ht)) s h

/-- C7 (amended): `optimize` merges consecutive same-speaker segments with
a single separating space while the sum of the accumulated text length and
the next text length stays under the 800-character cap (the separator is
not counted, so a merged text can reach exactly 800 characters);
consequently, for inputs each strictly under 800 characters, every output
segment has text of length at most 800. -/
theorem optimizeScript_text_le_cap (script : List ScriptSegment)
    (h : ∀ s ∈ script, s.text.length < MAX_CHAR_LIMIT) :
    ∀ s ∈ optimizeScript script, s.text.length ≤ MAX_CHAR_LIMIT := by
  cases script with
  | nil => intro s hs; simp [optimizeScript] at hs
  | cons first rest =>
    exact optimizeGo_length_bound rest first
      (le_of_lt (h first (List.mem_cons_self _ _)))
      (fun s hs => h s (List.mem_cons_of_mem _ hs))

/-- C7 (amended) witness: the merged 800-character segment produced from
`segA` and `segB` is within the (inclusive) cap. -/
theorem optimizeScript_text_le_cap_witness :
    (⟨"A", segA.text ++ " " ++ segB.text⟩ : ScriptSegment).text.length ≤ MAX_CHAR_LIMIT :=
  optimizeScript_text_le_cap [segA, segB] (by decide) _ (by decide)

/-- C8 counterexample: the concurrency ceiling is not "at least 1" for
every pool — a pool that parses zero valid credentials (reachable, e.g.
from a configuration whose tokens all fail the 10-character minimum)
yields `MAX_CONCURRENCY = min(3, 0 × 2) = 0`. -/
theorem maxConcurrency_zero_counterexample :
    maxConcurrency 0 = 0 ∧ ¬ 1 ≤ maxConcurrency 0 := by
  refine ⟨rfl, ?_⟩; decide

/-- Every state reachable by scheduler transitions keeps the active-worker
count at or under the ceiling it started under. -/
theorem schedReach_activeWorkers_le (C : Nat) (s t : SchedState)
    (h : SchedReach C s t) (hs : s.activeWorkers ≤ C) : t.activeWorkers ≤ C := by
  induction h with
  | refl => exact hs
  | tail _ hstep ih =>
    cases hstep with
    | start j q a ha => exact ha
    | finish q a => exact Nat.le_of_succ_le ih
    | requeue j q a => exact ih

/-- C8 (amended): in every state the `processQueue` scheduler can reach
from an idle start, at most `MAX_CONCURRENCY = min(3, 2 × credentialCount)`
jobs are simultaneously active; the ceiling is at least 1 whenever the
pool holds at least one credential (with zero credentials it is 0). -/
theorem scheduler_concurrency_bound (activeKeyCount : Nat) (q0 : List Job)
    (s : SchedState) (h : SchedReach (maxConcurrency activeKeyCount) ⟨q0, 0⟩ s) :
    s.activeWorkers ≤ maxConcurrency activeKeyCount ∧
      (1 ≤ activeKeyCount → 1 ≤ maxConcurrency activeKeyCount) := by
  constructor
  · exact schedReach_activeWorkers_le _ _ _ h (Nat.zero_le _)
  · intro h1
    have : 2 ≤ activeKeyCount * 2 := by omega
    simp only [maxConcurrency]
    omega

/-- C8 (amended) witness: the idle start state of a one-credential run is
reachable (reflexively) and respects the ceiling, which is positive. -/
theorem scheduler_concurrency_bound_witness :
    (⟨[], 0⟩ : SchedState).activeWorkers ≤ maxConcurrency 1 ∧
      (1 ≤ 1 → 1 ≤ maxConcurrency 1) :=
  scheduler_concurrency_bound 1 [] ⟨[], 0⟩ (SchedReach.refl _)

/-- The jail test fires exactly on a strictly future suspension
timestamp. -/
theorem jailActive_eq_true_iff (now : Nat) (st : KeyManager) (key : String) :
    jailActive now st key = true ↔ ∃ t, st.jailedUntil key = some t ∧ now < t := by
  unfold jailActive
  cases h : st.jailedUntil key with
  | none => simp
  | some t => simp

/-- The jail test passes exactly when any suspension timestamp is at or
before `now`. -/
theorem jailActive_eq_false_iff (now : Nat) (st : KeyManager) (key : String) :
    jailActive now st key = false ↔
      ∀ t, st.jailedUntil key = some t → t ≤ now := by
  unfold jailActive
  cases h : st.jailedUntil key with
  | none => simp
  | some t => simp [Nat.not_lt]

/-- Unfolding of the usability test: a key index is usable iff its key is
past any suspension timestamp and under the window budget. -/
theorem isUsable_eq_true (now : Nat) (st : KeyManager) (idx : Nat) :
    isUsable now st idx = true ↔
      (∀ t, st.jailedUntil (st.keys.getD idx "") = some t → t ≤ now) ∧
        st.requestCounts (st.keys.getD idx "") < MAX_RPM := by
  unfold isUsable
  by_cases hj : jailActive now st (st.keys.getD idx "") = true
  · simp only [hj, if_true, Bool.false_eq_true, false_iff, not_and]
    obtain ⟨t, ht, hlt⟩ := (jailActive_eq_true_iff now st _).mp hj
    intro hall
    exact absurd (hall t ht) (by omega)
  · have hj' : jailActive now st (st.keys.getD idx "") = false :=
      Bool.not_eq_true _ ▸ hj
    simp only [hj', Bool.false_eq_true, if_false, decide_eq_true_eq]
    exact ⟨fun hc => ⟨(jailActive_eq_false_iff now st _).mp hj', hc⟩, fun hand => hand.2⟩

/-- If the forward scan of `reserveKey` returns a key, that key sits at a
usable index of the (unchanged) pool. -/
theorem reserveScan_some (now : Nat) (st : KeyManager) (is : List Nat) (k : String)
    (h : (reserveScan now st is).1 = some k) :
    ∃ ptr, isUsable now st ptr = true ∧ k = st.keys.getD ptr "" := by
  induction is with
  | nil => simp [reserveScan] at h
  | cons i rest ih =>
    simp only [reserveScan] at h
    split at h
    · rename_i hcond
      exact ⟨(st.currentIndex + i) % st.keys.length, hcond, (Option.some.inj h).symm⟩
    · exact ih h

/-- C6: `reserveKey` returns only usable credentials.  First conjunct: any
returned key is, in the window state current at the call (`checkReset`
applied), strictly under the per-window request maximum, and past any
`suspendedUntil` timestamp — so a key whose count has reached
`MAX_RPM` is never returned until the window resets, and a suspended key
is never returned before its timestamp.  Second conjunct: a key whose
suspension timestamp is at or before `now` and whose count is under the
maximum tests usable — eligibility resumes exactly at the timestamp. -/
theorem reserveKey_returns_only_usable (now : Nat) (st : KeyManager) :
    (∀ k, (reserveKey now st).1 = some k →
        (checkReset now st).requestCounts k < MAX_RPM ∧
          ∀ t, st.jailedUntil k = some t → t ≤ now) ∧
      (∀ idx t, st.jailedUntil (st.keys.getD idx "") = some t → t ≤ now →
          (checkReset now st).requestCounts (st.keys.getD idx "") < MAX_RPM →
          isUsable now (checkReset now st) idx = true) := by
  constructor
  · intro k hk
    simp only [reserveKey] at hk
    split at hk
    · rename_i hcond
      have hspec := (isUsable_eq_true now (checkReset now st) _).mp hcond
      rw [checkReset_keys, checkReset_jailedUntil] at hspec
      have hkey : k = st.keys.getD (checkReset now st).currentIndex "" := by
        rw [← checkReset_keys now st]
        exact (Option.some.inj hk).symm
      exact hkey ▸ ⟨hspec.2, hspec.1⟩
    · obtain ⟨ptr, hu, hkey⟩ := reserveScan_some now _ _ k hk
      have hspec := (isUsable_eq_true now (checkReset now st) ptr).mp hu
      rw [checkReset_keys, checkReset_jailedUntil] at hspec
      rw [checkReset_keys] at hkey
      exact hkey ▸ ⟨hspec.2, hspec.1⟩
  · intro idx t hjail hle hcount
    rw [isUsable_eq_true, checkReset_keys, checkReset_jailedUntil]
    refine ⟨fun u hu => ?_, hcount⟩
    rw [hjail] at hu
    exact (Option.some.inj hu) ▸ hle

/-- C6 witness: on the fresh pool `reserveKey` returns key "AAAAAAAAAAAA",
whose window count is indeed under the maximum. -/
theorem reserveKey_returns_only_usable_witness :
    (checkReset 0 kmFresh).requestCounts "AAAAAAAAAAAA" < MAX_RPM :=
  ((reserveKey_returns_only_usable 0 kmFresh).1 "AAAAAAAAAAAA" (by decide)).1

/-- A failed scan leaves the pool untouched. -/
theorem reserveScan_fst_none (now : Nat) (st : KeyManager) (is : List Nat)
    (h : (reserveScan now st is).1 = none) : reserveScan now st is = (none, st) := by
  induction is with
  | nil => rfl
  | cons i rest ih =>
    simp only [reserveScan] at h ⊢
    split at h
    · simp at h
    · rename_i hcond
      rw [if_neg hcond]
      exact ih h

/-- A key returned by the scan is a key of the pool. -/
theorem reserveScan_some_mem (now : Nat) (st : KeyManager) (is : List Nat) (k : String)
    (hlen : 0 < st.keys.length) (h : (reserveScan now st is).1 = some k) :
    k ∈ st.keys := by
  induction is with
  | nil => simp [reserveScan] at h
  | cons i rest ih =>
    simp only [reserveScan] at h
    split at h
    · have hk := (Option.some.inj h).symm
      have hptr : (st.currentIndex + i) % st.keys.length < st.keys.length :=
        Nat.mod_lt _ hlen
      rw [hk, List.getD_eq_getElem st.keys "" hptr]
      exact List.getElem_mem _
    · exact ih h

/-- When every scanned pointer is unusable the scan returns `none` and the
pool unchanged. -/
theorem reserveScan_none_of_all_unusable (now : Nat) (st : KeyManager) (is : List Nat)
    (h : ∀ i ∈ is, isUsable now st ((st.currentIndex + i) % st.keys.length) = false) :
    reserveScan now st is = (none, st) := by
  induction is with
  | nil => rfl
  | cons i rest ih =>
    simp only [reserveScan]
    rw [if_neg (by simp [h i (List.mem_cons_self _ _)])]
    exact ih fun j hj => h j (List.mem_cons_of_mem _ hj)

/-- A key returned by `reserveKey` is a key of the pool. -/
theorem reserveKey_some_mem (now : Nat) (st : KeyManager) (k : String)
    (hlen : 0 < st.keys.length) (hci : st.currentIndex < st.keys.length)
    (h : (reserveKey now st).1 = some k) : k ∈ st.keys := by
  simp only [reserveKey] at h
  split at h
  · have hk : k = (checkReset now st).keys.getD (checkReset now st).currentIndex "" :=
      (Option.some.inj h).symm
    rw [checkReset_keys, checkReset_currentIndex] at hk
    rw [hk, List.getD_eq_getElem st.keys "" hci]
    exact List.getElem_mem _
  · have := reserveScan_some_mem now (checkReset now st) _ k
      (by rw [checkReset_keys]; exact hlen) h
    rw [checkReset_keys] at this
    exact this

/-- When `reserveKey` fails, the pool state it returns is just the
window-reset pool. -/
theorem reserveKey_none_snd (now : Nat) (st : KeyManager)
    (h : (reserveKey now st).1 = none) :
    (reserveKey now st).2 = checkReset now st := by
  by_cases hcond : isUsable now (checkReset now st) (checkReset now st).currentIndex = true
  · simp only [reserveKey, hcond, if_true] at h
    simp at h
  · simp only [reserveKey, if_neg hcond] at h ⊢
    rw [reserveScan_fst_none now _ _ h]

/-- C10: as long as the pool parsed at least one key, `getWorkingKey`
always answers with a key of the pool — it never signals unavailability —
and when every index is unusable it answers with the (possibly unusable)
key at the current round-robin index, in the very situation in which
`reserveKey` answers `none`. -/
theorem getWorkingKey_total (now : Nat) (st : KeyManager)
    (hne : st.keys ≠ []) (hci : st.currentIndex < st.keys.length) :
    (getWorkingKey now st).1 ∈ st.keys ∧
      ((∀ i, i < st.keys.length → isUsable now (checkReset now st) i = false) →
        (reserveKey now st).1 = none ∧
          (getWorkingKey now st).1 = st.keys.getD st.currentIndex "") := by
  have hlen : 0 < st.keys.length := List.length_pos.mpr hne
  constructor
  · unfold getWorkingKey
    cases hres : reserveKey now st with
    | mk r st2 =>
      cases r with
      | some k =>
        show k ∈ st.keys
        exact reserveKey_some_mem now st k hlen hci (by rw [hres])
      | none =>
        show st2.keys.getD st2.currentIndex "" ∈ st.keys
        have h2 : st2 = checkReset now st := by
          have := reserveKey_none_snd now st (by rw [hres])
          rw [hres] at this
          exact this
        rw [h2, checkReset_keys, checkReset_currentIndex,
          List.getD_eq_getElem st.keys "" hci]
        exact List.getElem_mem _
  · intro hall
    have hcond : ¬ isUsable now (checkReset now st) (checkReset now st).currentIndex = true := by
      rw [checkReset_currentIndex]
      simp [hall st.currentIndex hci]
    have hlen2 : 0 < (checkReset now st).keys.length := by
      rw [checkReset_keys]; exact hlen
    have hmod : ∀ i, ((checkReset now st).currentIndex + i) % (checkReset now st).keys.length
        < st.keys.length := by
      intro j
      rw [← checkReset_keys now st]
      exact Nat.mod_lt _ hlen2
    have hscan : reserveScan now (checkReset now st)
        (List.range' 1 ((checkReset now st).keys.length - 1)) = (none, checkReset now st) := by
      refine reserveScan_none_of_all_unusable now _ _ fun i hi => ?_
      exact hall _ (hmod i)
    have hrk : reserveKey now st = (none, checkReset now st) := by
      simp only [reserveKey, if_neg hcond]
      exact hscan
    refine ⟨by rw [hrk], ?_⟩
    unfold getWorkingKey
    rw [hrk]
    show (checkReset now st).keys.getD (checkReset now st).currentIndex "" = _
    rw [checkReset_keys, checkReset_currentIndex]

/-- C10 witness: with every key of `kmAllJailed` suspended, `reserveKey`
returns `none` but `getWorkingKey` still returns the key at the current
index. -/
theorem getWorkingKey_total_witness :
    (getWorkingKey 0 kmAllJailed).1 = kmAllJailed.keys.getD kmAllJailed.currentIndex "" :=
  ((getWorkingKey_total 0 kmAllJailed (by decide) (by decide)).2 (by decide)).2

/-- A segment index bound to no completed chunk looks up to `none`. -/
theorem lookup_eq_none_of_not_mem_keys (ws : List (Nat × AudioBuffer)) (i : Nat)
    (h : i ∉ ws.map Prod.fst) : List.lookup i ws = none := by
  induction ws with
  | nil => rfl
  | cons w rest ih =>
    obtain ⟨k, b⟩ := w
    simp only [List.map_cons, List.mem_cons, not_or] at h
    have hb : (i == k) = false := beq_eq_false_iff_ne.mpr h.1
    simp [List.lookup, hb, ih h.2]

/-- With pairwise-distinct segment indices, membership determines the
lookup result. -/
theorem lookup_of_mem_nodup (ws : List (Nat × AudioBuffer)) (i : Nat) (b : AudioBuffer)
    (hnd : (ws.map Prod.fst).Nodup) (hmem : (i, b) ∈ ws) : List.lookup i ws = some b := by
  induction ws with
  | nil => cases hmem
  | cons w rest ih =>
    obtain ⟨k, c⟩ := w
    simp only [List.map_cons, List.nodup_cons] at hnd
    rcases List.mem_cons.mp hmem with h | h
    · obtain ⟨h1, h2⟩ := Prod.mk.injEq .. ▸ h
      have hb : (i == k) = true := beq_iff_eq.mpr h1
      simp [List.lookup, hb, h2]
    · have hik : i ≠ k := by
        intro he
        exact hnd.1 (he ▸ (List.mem_map.mpr ⟨(i, b), h, rfl⟩))
      have hb : (i == k) = false := beq_eq_false_iff_ne.mpr hik
      simp [List.lookup, hb, ih hnd.2 h]

/-- A successful lookup exhibits a member of the write set. -/
theorem mem_of_lookup_eq_some (ws : List (Nat × AudioBuffer)) (i : Nat) (b : AudioBuffer)
    (h : List.lookup i ws = some b) : (i, b) ∈ ws := by
  induction ws with
  | nil => cases h
  | cons w rest ih =>
    obtain ⟨k, c⟩ := w
    by_cases hik : i = k
    · subst hik
      simp only [List.lookup, beq_self_eq_true] at h
      simp [Option.some.inj h]
    · have hb : (i == k) = false := beq_eq_false_iff_ne.mpr hik
      simp only [List.lookup, hb] at h
      exact List.mem_cons_of_mem _ (ih h)

/-- When the segment indices are pairwise distinct, the lookup result is
invariant under reordering of the write set. -/
theorem lookup_perm (ws ws' : List (Nat × AudioBuffer)) (hperm : ws.Perm ws')
    (hnd : (ws.map Prod.fst).Nodup) (i : Nat) :
    List.lookup i ws = List.lookup i ws' := by
  cases h : List.lookup i ws with
  | some b =>
    exact (lookup_of_mem_nodup ws' i b ((hperm.map Prod.fst).nodup_iff.mp hnd)
      (hperm.subset (mem_of_lookup_eq_some ws i b h))).symm
  | none =>
    cases h2 : List.lookup i ws' with
    | none => rfl
    | some b =>
      have hmem : (i, b) ∈ ws := hperm.symm.subset (mem_of_lookup_eq_some ws' i b h2)
      rw [lookup_of_mem_nodup ws i b hnd hmem] at h
      cases h

/-- Applying writes never changes the number of slots. -/
theorem applyWrites_length (ws : List (Nat × AudioBuffer))
    (slots : List (Option AudioBuffer)) :
    (applyWrites ws slots).length = slots.length := by
  induction ws generalizing slots with
  | nil => rfl
  | cons w rest ih =>
    simp only [applyWrites, List.foldl_cons] at ih ⊢
    rw [ih, List.length_set]

/-- Slot contents after a nodup write set: the slot holds the chunk bound
to its index, and is otherwise untouched. -/
theorem applyWrites_getD (ws : List (Nat × AudioBuffer))
    (slots : List (Option AudioBuffer)) (hnd : (ws.map Prod.fst).Nodup)
    (hlt : ∀ w ∈ ws, w.1 < slots.length) (i : Nat) :
    (applyWrites ws slots).getD i none = (List.lookup i ws).or (slots.getD i none) := by
  induction ws generalizing slots with
  | nil => simp [applyWrites, List.lookup]
  | cons w rest ih =>
    obtain ⟨k, b⟩ := w
    simp only [List.map_cons, List.nodup_cons] at hnd
    simp only [applyWrites, List.foldl_cons] at ih ⊢
    have hlt' : ∀ w ∈ rest, w.1 < (slots.set k (some b)).length := by
      intro w hw
      rw [List.length_set]
      exact hlt w (List.mem_cons_of_mem _ hw)
    rw [ih (slots.set k (some b)) hnd.2 hlt']
    by_cases hik : i = k
    · subst hik
      rw [lookup_eq_none_of_not_mem_keys rest i hnd.1]
      have hi : i < slots.length := hlt (i, b) (List.mem_cons_self _ _)
      have hset : (slots.set i (some b)).getD i none = some b := by
        rw [List.getD_eq_getElem _ _ (by rw [List.length_set]; exact hi)]
        exact List.getElem_set_self _
      rw [hset]
      simp [List.lookup, Option.or]
    · have hset : (slots.set k (some b)).getD i none = slots.getD i none := by
        rcases Nat.lt_or_ge i slots.length with hi | hi
        · rw [List.getD_eq_getElem _ _ (by rw [List.length_set]; exact hi),
            List.getD_eq_getElem _ _ hi]
          exact List.getElem_set_ne (fun he => hik he.symm) _
        · rw [List.getD_eq_getElem?_getD, List.getD_eq_getElem?_getD,
            List.getElem?_eq_none (by rw [List.length_set]; exact hi),
            List.getElem?_eq_none hi]
      rw [hset]
      have hb : (i == k) = false := beq_eq_false_iff_ne.mpr hik
      have hlook : List.lookup i ((k, b) :: rest) = List.lookup i rest := by
        simp [List.lookup, hb]
      rw [hlook]

/-- After all writes land, the slot array is exactly the lookup table of
the write set, laid out in index order. -/
theorem applyWrites_replicate_eq (n : Nat) (ws : List (Nat × AudioBuffer))
    (hnd : (ws.map Prod.fst).Nodup) (hlt : ∀ w ∈ ws, w.1 < n) :
    applyWrites ws (List.replicate n none)
      = (List.range n).map fun i => List.lookup i ws := by
  have hlen : (applyWrites ws (List.replicate n none)).length = n := by
    rw [applyWrites_length, List.length_replicate]
  refine List.ext_getElem (by simp [hlen]) fun i h1 h2 => ?_
  have hgd := applyWrites_getD ws (List.replicate n none) hnd
    (by simpa using hlt) i
  rw [List.getD_eq_getElem _ _ h1] at hgd
  have hrep : (List.replicate n (none : Option AudioBuffer)).getD i none = none := by
    rcases Nat.lt_or_ge i n with hi | hi
    · rw [List.getD_eq_getElem _ _ (by simpa using hi)]
      simp
    · rw [List.getD_eq_getElem?_getD, List.getElem?_eq_none (by simpa using hi)]
      rfl
  rw [hrep] at hgd
  simp only [List.getElem_map, List.getElem_range]
  rw [hgd]
  exact Option.or_none

/-- The running total of `concatenateAudioBuffers` is the sum of the
frame counts. -/
theorem foldl_add_length (bs : List AudioBuffer) (n : Nat) :
    bs.foldl (fun acc b => acc + b.length) n = n + (bs.map AudioBuffer.length).sum := by
  induction bs generalizing n with
  | nil => simp
  | cons b rest ih =>
    simp only [List.foldl_cons, List.map_cons, List.sum_cons, ih]
    omega

/-- The per-channel copy loop tiles the zero-filled result exactly: after
processing the buffers, the accumulated data is the already-written prefix
followed by the buffers' channel data in list order. -/
theorem concatChannel_flatten_aux (ch : Nat) (bs : List AudioBuffer) (pre : List ℚ)
    (L : Nat) (hwf : ∀ b ∈ bs, (b.channelData.getD ch []).length = b.length)
    (hL : pre.length + (bs.map AudioBuffer.length).sum = L) :
    (bs.foldl
        (fun acc b => (copyInto acc.1 acc.2 (b.channelData.getD ch []), acc.2 + b.length))
        (pre ++ List.replicate (L - pre.length) 0, pre.length)).1
      = pre ++ (bs.map fun b => b.channelData.getD ch []).flatten := by
  induction bs generalizing pre with
  | nil =>
    simp only [List.map_nil, List.sum_nil, Nat.add_zero] at hL
    simp [hL, List.foldl_nil]
  | cons b rest ih =>
    have hfb : (b.channelData.getD ch []).length = b.length :=
      hwf b (List.mem_cons_self _ _)
    have hstep : copyInto (pre ++ List.replicate (L - pre.length) 0) pre.length
        (b.channelData.getD ch [])
        = (pre ++ b.channelData.getD ch [])
            ++ List.replicate (L - (pre ++ b.channelData.getD ch []).length) 0 := by
      unfold copyInto
      rw [List.take_left, hfb, List.drop_append, List.drop_replicate]
      rw [List.length_append, hfb, Nat.sub_sub]
    simp only [List.foldl_cons, hstep, List.map_cons, List.flatten_cons]
    have hoff : pre.length + b.length = (pre ++ b.channelData.getD ch []).length := by
      rw [List.length_append, hfb]
    rw [hoff]
    have hL2 : pre.length + (b.length + (rest.map AudioBuffer.length).sum) = L := by
      simpa using hL
    have hL3 : (pre ++ b.channelData.getD ch []).length
        + (rest.map AudioBuffer.length).sum = L := by
      rw [List.length_append, hfb]
      omega
    rw [ih (pre ++ b.channelData.getD ch [])
      (fun c hc => hwf c (List.mem_cons_of_mem _ hc)) hL3]
    rw [List.append_assoc]

/-- For a nonempty list of well-formed, nonempty, single-channel chunks,
`concatenateAudioBuffers` produces a single channel holding the chunks'
samples concatenated in list order. -/
theorem concatenateAudioBuffers_channelData (bs : List AudioBuffer) (hne : bs ≠ [])
    (hch : ∀ b ∈ bs, b.numberOfChannels = 1)
    (hwf : ∀ b ∈ bs, (b.channelData.getD 0 []).length = b.length)
    (hpos : ∀ b ∈ bs, 0 < b.length) :
    (concatenateAudioBuffers bs).channelData
      = [(bs.map fun b => b.channelData.getD 0 []).flatten] := by
  have hempty : bs.isEmpty = false := by
    cases bs with
    | nil => exact absurd rfl hne
    | cons b rest => rfl
  have hfilter : bs.filter (fun b => decide (0 < b.length)) = bs :=
    List.filter_eq_self.mpr fun b hb => by simpa using hpos b hb
  have htot : bs.foldl (fun acc b => acc + b.length) 0
      = (bs.map AudioBuffer.length).sum := by
    rw [foldl_add_length]; omega
  have htotpos : 0 < (bs.map AudioBuffer.length).sum := by
    cases bs with
    | nil => exact absurd rfl hne
    | cons b rest =>
      have := hpos b (List.mem_cons_self _ _)
      simp only [List.map_cons, List.sum_cons]
      omega
  have hhead : (bs.headD (createBuffer 1 1 24000)).numberOfChannels = 1 := by
    cases bs with
    | nil => exact absurd rfl hne
    | cons b rest => exact hch b (List.mem_cons_self _ _)
  simp only [concatenateAudioBuffers, hempty, Bool.false_eq_true, if_false, hfilter,
    htot, hhead]
  have hrange : List.range 1 = [0] := rfl
  have haux := concatChannel_flatten_aux 0 bs [] ((bs.map AudioBuffer.length).sum) hwf
    (by simp)
  simp only [List.nil_append, List.length_nil, Nat.sub_zero] at haux
  rw [if_neg (by omega), hrange, List.map_singleton]
  simp only [concatChannel]
  rw [haux]

/-- C1: the assembled track depends only on which jobs completed, never on
the order their completions arrived.  For any set of completed writes `ws`
(each chunk stored at the slot equal to its job's segment index, indices
pairwise distinct and in range) and any completion order `ws'` of them:
(1) filtering the written slot array keeps exactly the successful chunks,
arranged strictly in ascending original segment index order (the
index-order lookup table of `ws`); and (2) concatenating them yields the
sample stream of those chunks in that same ascending index order, for
well-formed mono chunks of nonzero length as `processItem` produces. -/
theorem generation_assembles_in_index_order (n : Nat)
    (ws ws' : List (Nat × AudioBuffer))
    (hnd : (ws.map Prod.fst).Nodup)
    (hlt : ∀ w ∈ ws, w.1 < n)
    (hperm : ws'.Perm ws)
    (hch : ∀ w ∈ ws, w.2.numberOfChannels = 1)
    (hwf : ∀ w ∈ ws, (w.2.channelData.getD 0 []).length = w.2.length)
    (hpos : ∀ w ∈ ws, 0 < w.2.length) :
    (applyWrites ws' (List.replicate n none)).filterMap id
        = (List.range n).filterMap (fun i => List.lookup i ws) ∧
      ((List.range n).filterMap (fun i => List.lookup i ws) ≠ [] →
        (concatenateAudioBuffers
            ((applyWrites ws' (List.replicate n none)).filterMap id)).channelData
          = [(((List.range n).filterMap fun i => List.lookup i ws).map
                fun b => b.channelData.getD 0 []).flatten]) := by
  have hnd' : (ws'.map Prod.fst).Nodup := (hperm.map Prod.fst).nodup_iff.mpr hnd
  have hlt' : ∀ w ∈ ws', w.1 < n := fun w hw => hlt w (hperm.subset hw)
  have hmain : (applyWrites ws' (List.replicate n none)).filterMap id
      = (List.range n).filterMap fun i => List.lookup i ws := by
    rw [applyWrites_replicate_eq n ws' hnd' hlt', List.filterMap_map]
    exact List.filterMap_congr fun i _ => lookup_perm ws' ws hperm hnd' i
  have hprops : ∀ b ∈ (List.range n).filterMap (fun i => List.lookup i ws),
      b.numberOfChannels = 1 ∧ (b.channelData.getD 0 []).length = b.length
        ∧ 0 < b.length := by
    intro b hb
    obtain ⟨i, _, hlook⟩ := List.mem_filterMap.mp hb
    have hmem := mem_of_lookup_eq_some ws i b hlook
    exact ⟨hch _ hmem, hwf _ hmem, hpos _ hmem⟩
  refine ⟨hmain, fun hne => ?_⟩
  rw [hmain]
  exact concatenateAudioBuffers_channelData _ hne (fun b hb => (hprops b hb).1)
    (fun b hb => (hprops b hb).2.1) (fun b hb => (hprops b hb).2.2)

/-- C1 witness: two jobs whose completions arrive in reverse order (job 1
first, then job 0) still fill the slot array so that job 0's chunk
precedes job 1's. -/
theorem generation_assembles_in_index_order_witness :
    (applyWrites [(1, createBuffer 1 2 24000), (0, createBuffer 1 1 24000)]
        (List.replicate 2 none)).filterMap id
      = (List.range 2).filterMap
          (fun i =>
            List.lookup i [(0, createBuffer 1 1 24000), (1, createBuffer 1 2 24000)]) :=
  (generation_assembles_in_index_order 2
    [(0, createBuffer 1 1 24000), (1, createBuffer 1 2 24000)]
    [(1, createBuffer 1 2 24000), (0, createBuffer 1 1 24000)]
    (by decide) (by decide) (List.Perm.swap _ _ _) (by decide) (by decide)
    (by decide)).1

/-- Each 16-bit sample contributes exactly two bytes. -/
theorem int16Flatten_length (g : Nat → Int) (m : Nat) :
    (((List.range m).map fun i => int16leBytes (g i)).flatten).length = 2 * m := by
  rw [List.length_flatten, List.map_map]
  have hconst : (List.length ∘ fun i => int16leBytes (g i)) = fun _ => 2 := by
    funext i; rfl
  rw [hconst]
  simp [List.map_const', List.sum_replicate, smul_eq_mul]
  omega

/-- Reinterpreting a byte list as 16-bit values halves its length. -/
theorem bytesToInt16_length (l : List Nat) : (bytesToInt16 l).length = l.length / 2 := by
  match l with
  | [] => rfl
  | [x] => simp [bytesToInt16]
  | x :: y :: rest =>
    simp only [bytesToInt16, List.length_cons, bytesToInt16_length rest]
    omega

/-- The emitted WAV stream is the 44-byte header plus two bytes per sample
per channel. -/
theorem bufferToWav_length (b : AudioBuffer) :
    (bufferToWav b).length = 44 + b.length * b.numberOfChannels * 2 := by
  have hinner : (List.length ∘ fun pos =>
      ((List.range b.numberOfChannels).map fun i =>
        int16leBytes (sampleToPCM ((b.channelData.getD i []).getD pos 0))).flatten)
      = fun _ => 2 * b.numberOfChannels := by
    funext pos
    exact int16Flatten_length _ _
  simp only [bufferToWav, List.length_append, u32le, u16le, List.length_cons,
    List.length_nil, List.length_flatten, List.map_map, hinner]
  simp [List.map_const', List.sum_replicate, smul_eq_mul]
  ring

/-- The dimension round trip through the container: stripping the 44-byte
header off `bufferToWav`'s output and decoding the raw PCM back at the
buffer's rate and channel count recovers the original channel count,
sample rate, and sample count (the part of the round-trip contract the
code does satisfy, the data-chunk-size header field notwithstanding). -/
theorem decode_bufferToWav_dims (b : AudioBuffer) (h : 0 < b.numberOfChannels) :
    (decodeAudioData ((bufferToWav b).drop 44) b.sampleRate b.numberOfChannels).numberOfChannels
        = b.numberOfChannels ∧
      (decodeAudioData ((bufferToWav b).drop 44) b.sampleRate b.numberOfChannels).sampleRate
        = b.sampleRate ∧
      (decodeAudioData ((bufferToWav b).drop 44) b.sampleRate b.numberOfChannels).length
        = b.length := by
  refine ⟨rfl, rfl, ?_⟩
  show (bytesToInt16 ((bufferToWav b).drop 44)).length / b.numberOfChannels = b.length
  rw [bytesToInt16_length, List.length_drop, bufferToWav_length]
  have h1 : 44 + b.length * b.numberOfChannels * 2 - 44
      = b.length * b.numberOfChannels * 2 := by omega
  rw [h1, Nat.mul_div_cancel _ (by norm_num)]
  exact Nat.mul_div_cancel _ h
